import Mathlib

/-!
Verification development for the eBay-Photos card-detection and export
pipeline.  The TypeScript sources are shallowly embedded: JavaScript
numbers appearing in integer positions are modelled as `ℤ`, general
numeric values as `ℚ` (or `ℝ` where trigonometry is involved),
`Math.round` as Mathlib's `round` (both round halves toward +∞), and
JavaScript's stable `Array.prototype.sort` as a stable insertion sort.
-/

/-! ## Geometry: rectangles (export worker, `part_010`) -/

/-- `ExportWorkerBoundingBox` with arbitrary numeric (possibly fractional)
fields, as accepted by `clampRect`. -/
structure RectQ where
  x : ℚ
  y : ℚ
  width : ℚ
  height : ℚ
  deriving DecidableEq

/-- An integer-valued rectangle, as produced by `clampRect` (all four
fields pass through `Math.round`). -/
structure RectZ where
  x : ℤ
  y : ℤ
  width : ℤ
  height : ℤ
  deriving DecidableEq

/-- View an integer rectangle as a numeric rectangle (for re-clamping). -/
def RectZ.toQ (r : RectZ) : RectQ :=
  ⟨(r.x : ℚ), (r.y : ℚ), (r.width : ℚ), (r.height : ℚ)⟩

/-- `clampRect` from the export worker (`part_010`, lines 206-212):
clamp a bounding box into `[0, maxWidth) × [0, maxHeight)` with a
minimum size of 1×1. -/
def clampRect (rect : RectQ) (maxWidth maxHeight : ℤ) : RectZ :=
  let x := min (max (round rect.x) 0) (max 0 (maxWidth - 1))
  let y := min (max (round rect.y) 0) (max 0 (maxHeight - 1))
  let width := max 1 (min (round rect.width) (maxWidth - x))
  let height := max 1 (min (round rect.height) (maxHeight - y))
  ⟨x, y, width, height⟩

/-- `computeQuadrants` from the export worker (`part_010`, lines 214-228):
four corner detail crops, each 60% of the bounding box, anchored at the
four corners. -/
def computeQuadrants (bbox : RectZ) : List RectQ :=
  let detailWidth : ℤ := max 1 (round ((bbox.width : ℚ) * (6 / 10)))
  let detailHeight : ℤ := max 1 (round ((bbox.height : ℚ) * (6 / 10)))
  [ ⟨(bbox.x : ℚ), (bbox.y : ℚ), (detailWidth : ℚ), (detailHeight : ℚ)⟩,
    ⟨((bbox.x + bbox.width - detailWidth : ℤ) : ℚ), (bbox.y : ℚ),
      (detailWidth : ℚ), (detailHeight : ℚ)⟩,
    ⟨(bbox.x : ℚ), ((bbox.y + bbox.height - detailHeight : ℤ) : ℚ),
      (detailWidth : ℚ), (detailHeight : ℚ)⟩,
    ⟨((bbox.x + bbox.width - detailWidth : ℤ) : ℚ),
      ((bbox.y + bbox.height - detailHeight : ℤ) : ℚ),
      (detailWidth : ℚ), (detailHeight : ℚ)⟩ ]

/-! ## Export renderer (`processSide` / `processPair`, `part_010`) -/

/-- The `side` discriminator of `ExportWorkerSidePayload`. -/
inductive SideTag where
  | front
  | back
  deriving DecidableEq

/-- `ExportWorkerSidePayload` (`part_009`).  The opaque image `blob` is
not modelled; a crop or warp records instead the exact geometric and
encoding parameters with which the canvas/OpenCV call is made. -/
structure SidePayload where
  side : SideTag
  width : ℤ
  height : ℤ
  bbox : RectQ
  quad : List (ℚ × ℚ)
  warpSize : ℚ × ℚ
  deriving DecidableEq

/-- How an output blob is produced: a 1:1 crop of a clamped rectangle
(`drawCrop`) or a perspective warp (`createWarpedBlob`). -/
inductive ImageOp where
  | crop (rect : RectZ) (format : String) (quality : ℚ)
  | warp (srcQuad : List (ℚ × ℚ)) (w h : ℤ) (format : String) (quality : ℚ)
  deriving DecidableEq

/-- One `{name, blob}` output of the export worker. -/
structure NamedImage where
  name : String
  op : ImageOp
  deriving DecidableEq

/-- Whether an output is the perspective-warped crop. -/
def NamedImage.isWarped (img : NamedImage) : Bool :=
  match img.op with
  | .crop _ _ _ => false
  | .warp _ _ _ _ _ => true

/-- `QUADRANT_SUFFIXES` (`part_010`, line 204). -/
def QUADRANT_SUFFIXES : List String :=
  ["TOP_LEFT", "TOP_RIGHT", "BOTTOM_LEFT", "BOTTOM_RIGHT"]

/-- `createWarpedBlob` (`part_010`, lines 260-305), reduced to the data
it feeds into `warpPerspective`: the 4 source quad points and the
rounded (≥ 1) warp target size. -/
def createWarpedBlob (payload : SidePayload) (format : String) (quality : ℚ) : ImageOp :=
  let width := max 1 (round payload.warpSize.1)
  let height := max 1 (round payload.warpSize.2)
  .warp payload.quad width height format quality

/-- `processSide` (`part_010`, lines 307-339): LISTING crop, four
quadrant crops, and — only for a front payload with `includeWarped` and
a 4-point quad — the WARPED crop. -/
def processSide (payload : SidePayload) (format : String) (extension : String)
    (quality : ℚ) (includeWarped : Bool) : List NamedImage :=
  let tag := if payload.side = SideTag.front then "FRONT" else "BACK"
  let baseBox := clampRect payload.bbox payload.width payload.height
  let listing : NamedImage :=
    ⟨tag ++ "_LISTING." ++ extension, .crop baseBox format quality⟩
  let quadImages :=
    ((computeQuadrants baseBox).zip QUADRANT_SUFFIXES).map fun pr =>
      (⟨tag ++ "_" ++ pr.2 ++ "." ++ extension,
        .crop (clampRect pr.1 payload.width payload.height) format quality⟩ : NamedImage)
  let base := listing :: quadImages
  if payload.side = SideTag.front ∧ includeWarped = true ∧ payload.quad.length = 4 then
    base ++ [⟨tag ++ "_WARPED." ++ extension, createWarpedBlob payload format quality⟩]
  else
    base

/-! ## Stable sorting (models JavaScript `Array.prototype.sort`)

`Array.prototype.sort` with a numeric comparator is required to be
stable, so its result is the unique stable sort of the input; a stable
insertion sort computes exactly that list. -/

/-- Stable insertion of `x` into a list sorted by `key`: `x` is placed
before the first element whose key is not smaller than `key x`, so an
element inserted from further left in the original array stays before
elements with equal keys. -/
def insertByKey {α β : Type} [LinearOrder β] (key : α → β) (x : α) : List α → List α
  | [] => [x]
  | y :: l => if key y < key x then y :: insertByKey key x l else x :: y :: l

/-- Stable insertion sort by `key`; the unique stable sort, hence the
result of JavaScript `sort` with comparator `(a, b) => key a - key b`. -/
def sortByKey {α β : Type} [LinearOrder β] (key : α → β) : List α → List α
  | [] => []
  | x :: xs => insertByKey key x (sortByKey key xs)

/-! ## Quad ordering (`orderQuadPoints`, `part_010` lines 69-80) -/

/-- `orderQuadPoints`: lists of length ≠ 4 are returned unchanged;
otherwise sort the four points by `x + y` (stably), take the extremes
as top-left / bottom-right, sort the two middle points by `x` (stably)
to obtain top-right / bottom-left, and return
`[topLeft, topRight, bottomRight, bottomLeft]`. -/
def orderQuadPoints {α : Type} [LinearOrderedField α] (points : List (α × α)) :
    List (α × α) :=
  if points.length = 4 then
    let sorted := sortByKey (fun p => p.1 + p.2) points
    let topLeft := sorted.getD 0 (0, 0)
    let bottomRight := sorted.getD 3 (0, 0)
    let remaining := sortByKey Prod.fst ((sorted.drop 1).take 2)
    let topRight := remaining.getD 0 (0, 0)
    let bottomLeft := remaining.getD 1 (0, 0)
    [topLeft, topRight, bottomRight, bottomLeft]
  else points

/-- `ExportWorkerPairRequest` (`part_009`). -/
structure PairRequest where
  format : String
  fileExtension : String
  quality : ℚ
  includeWarped : Bool
  front : Option SidePayload
  back : Option SidePayload
  deriving DecidableEq

/-- `processPair` (`part_010`, lines 341-363): clamp the quality into
`[0,1]`, render the front side with the requested `includeWarped`, and
the back side always with `includeWarped = false`. -/
def processPair (req : PairRequest) : List NamedImage :=
  let normalizedQuality := min 1 (max 0 req.quality)
  (match req.front with
   | some f => processSide f req.format req.fileExtension normalizedQuality req.includeWarped
   | none => []) ++
  (match req.back with
   | some b => processSide b req.format req.fileExtension normalizedQuality false
   | none => [])

/-! ## Detections and the pairing matcher (`types/detections.ts`, `routes/pairs.tsx`) -/

/-- `DetectedCard` (`types/detections.ts`): integer bounding box from
`boundingRect`, real-valued quad points (rotated-rect geometry),
normalized center, and rounded warp size. -/
structure DetectedCard where
  bbox : RectZ
  quad : List (ℝ × ℝ)
  centerNorm : ℝ × ℝ
  warpSize : ℤ × ℤ

/-- The `source` discriminator of `AdjustedCardEntry` (`pairs.tsx`). -/
inductive CardSource where
  | auto
  | manual
  deriving DecidableEq

/-- `AdjustedCardEntry` (`pairs.tsx`, lines 13-18). -/
structure AdjustedCardEntry where
  id : String
  card : DetectedCard
  order : ℕ
  source : CardSource

/-- The Euclidean distance summand of `computeTotalDistance`
(`pairs.tsx`, lines 68-70): `sqrt (dx*dx + dy*dy)`. -/
noncomputable def euclidDist (a b : ℝ × ℝ) : ℝ :=
  Real.sqrt ((a.1 - b.1) * (a.1 - b.1) + (a.2 - b.2) * (a.2 - b.2))

/-- `computeTotalDistance` (`pairs.tsx`, lines 62-72): reduce over the
front list with its index; an index with no partner in the back list
contributes nothing. -/
noncomputable def computeTotalDistance (front back : List AdjustedCardEntry) : ℝ :=
  front.enum.foldl
    (fun total pr =>
      match back.get? pr.1 with
      | none => total
      | some partner => total + euclidDist pr.2.card.centerNorm partner.card.centerNorm)
    0

/-- The `forwardDistance` / `reversedDistance` computation of the pairs
step (`pairs.tsx`, lines 100-107): both are `+∞` when the front list is
empty or the lengths differ, otherwise the total distances for the back
list as given and reversed. -/
noncomputable def autoPairDistances (front back : List AdjustedCardEntry) : EReal × EReal :=
  if front.length = 0 ∨ front.length ≠ back.length then (⊤, ⊤)
  else (((computeTotalDistance front back : ℝ) : EReal),
        ((computeTotalDistance front back.reverse : ℝ) : EReal))

/-- `reverseRecommended` (`pairs.tsx`, line 109): recommend reversing
the back order exactly when the reversed distance is strictly smaller. -/
def reverseRecommended (front back : List AdjustedCardEntry) : Prop :=
  (autoPairDistances front back).2 < (autoPairDistances front back).1

/-! ## Card detector (`detectCards`, `part_010` lines 114-189) -/

/-- The rotated rectangle returned by OpenCV `minAreaRect`: center,
size, and angle in degrees. -/
structure RotatedRect where
  center : ℝ × ℝ
  size : ℝ × ℝ
  angle : ℝ

/-- `buildQuadFromRect` (`part_010`, lines 82-101): rotate the four
half-extent corners by the angle (degrees converted to radians),
translate to the center, and order the result with `orderQuadPoints`. -/
noncomputable def buildQuadFromRect (rect : RotatedRect) : List (ℝ × ℝ) :=
  let angleRad := rect.angle * Real.pi / 180
  let c := Real.cos angleRad
  let s := Real.sin angleRad
  let halfWidth := rect.size.1 / 2
  let halfHeight := rect.size.2 / 2
  let basePoints : List (ℝ × ℝ) :=
    [(-halfWidth, -halfHeight), (halfWidth, -halfHeight),
     (halfWidth, halfHeight), (-halfWidth, halfHeight)]
  orderQuadPoints
    (basePoints.map fun p =>
      (p.1 * c - p.2 * s + rect.center.1, p.1 * s + p.2 * c + rect.center.2))

/-- What OpenCV contour analysis yields for one external contour: its
area (`contourArea`), minimum-area rotated rectangle (`minAreaRect`)
and axis-aligned bounding rectangle (`boundingRect`).  These
computations live in OpenCV, outside this repository, so the detector
loop is modelled as a function of their results. -/
structure ContourInfo where
  area : ℝ
  rotatedRect : RotatedRect
  boundingRect : RectZ

/-- The resolution-adaptive minimum contour area (`part_010`,
line 139): `Math.max(250000, width * height * 0.015)`. -/
noncomputable def areaThreshold (width height : ℕ) : ℝ :=
  max 250000 ((width : ℝ) * (height : ℝ) * (15 / 1000))

/-- The body of the detector loop (`part_010`, lines 142-176): a
contour below the area threshold is skipped; a surviving contour yields
a `DetectedCard` built from its rotated and bounding rectangles, with
`centerNorm` the rotated-rect center divided by the image dimensions
and `warpSize` the rounded rotated-rect size, at least 1. -/
noncomputable def processContour (width height : ℕ) (c : ContourInfo) :
    Option DetectedCard :=
  if c.area < areaThreshold width height then none
  else some
    { bbox := c.boundingRect
      quad := buildQuadFromRect c.rotatedRect
      centerNorm := (c.rotatedRect.center.1 / (width : ℝ),
                     c.rotatedRect.center.2 / (height : ℝ))
      warpSize := (max 1 (round c.rotatedRect.size.1),
                   max 1 (round c.rotatedRect.size.2)) }

/-- `detectCards` (`part_010`, lines 114-189) downstream of the OpenCV
pipeline (grayscale → blur → Canny → morphological close →
`findContours`), which is modelled by the incoming `ContourInfo` list —
an all-black image produces no edges, hence no contours, hence the
empty list here.  The surviving detections are sorted by ascending
`centerNorm.x`. -/
noncomputable def detectCards (width height : ℕ) (contours : List ContourInfo) :
    List DetectedCard :=
  sortByKey (fun d : DetectedCard => d.centerNorm.1)
    (contours.filterMap (processContour width height))

/-! ## Detection reference resolution (`services/export.ts` lines 61-84) -/

/-- `ManualDetectionAdjustment` (`state/session.ts`). -/
structure ManualDetectionAdjustment where
  id : String
  card : DetectedCard

/-- `DetectionAdjustment` (`state/session.ts`). -/
structure DetectionAdjustment where
  disabledAuto : List ℕ
  manual : List ManualDetectionAdjustment

/-- `String.prototype.startsWith(p)` on UTF-16-free character lists. -/
def strStartsWith (s p : String) : Bool := p.data.isPrefixOf s.data

/-- `String.prototype.slice(n)` for a non-negative character index. -/
def strDropChars (s : String) (n : ℕ) : String := ⟨s.data.drop n⟩

/-- A decimal digit, `'0' ≤ c ≤ '9'` by code point. -/
def isDigitChar (c : Char) : Bool := decide (48 ≤ c.toNat ∧ c.toNat ≤ 57)

/-- The JavaScript whitespace class (`\s` and `StrWhiteSpace`), by code
point. -/
def jsWhitespaceChar (c : Char) : Bool :=
  decide (c.toNat ∈ [9, 10, 11, 12, 13, 32, 160, 5760, 8192, 8193, 8194, 8195,
    8196, 8197, 8198, 8199, 8200, 8201, 8202, 8232, 8233, 8239, 8287, 12288, 65279])

/-- Decimal digits to a natural number, most significant first. -/
def digitsToNat (ds : List Char) : ℕ :=
  ds.foldl (fun a c => a * 10 + (c.toNat - 48)) 0

/-- `Number.parseInt(s, 10)`: skip leading whitespace, read an optional
sign and then the maximal leading run of decimal digits; `none` models
the `NaN` result (no digits), which `Number.isFinite` later rejects. -/
def jsParseInt (s : String) : Option ℤ :=
  let l := s.data.dropWhile jsWhitespaceChar
  let sign : ℤ := if l.head? = some '-' then -1 else 1
  let rest := if l.head? = some '-' ∨ l.head? = some '+' then l.tail else l
  let ds := rest.takeWhile isDigitChar
  if ds = [] then none else some (sign * (digitsToNat ds : ℤ))

/-- `resolveDetectedCard` (`services/export.ts`, lines 61-84): resolve
an auto reference `{fileId}-card-{index}` through `Number.parseInt` and
array indexing, a manual reference `{fileId}-manual-{id}` by linear
lookup, and everything else to `null`.  The source's guard
`if (!fileId || !detectionId) return null` treats `undefined` (the
`none` cases of the optional arguments) and the falsy empty string
alike, so both legs are modelled. -/
def resolveDetectedCard (fileId detectionId : Option String)
    (detectedCards : String → Option (List DetectedCard))
    (adjustments : String → Option DetectionAdjustment) : Option DetectedCard :=
  match fileId, detectionId with
  | some fid, some did =>
    if fid = "" ∨ did = "" then none
    else
    let autoPre := fid ++ "-card-"
    if strStartsWith did autoPre then
      match jsParseInt (strDropChars did autoPre.length) with
      | none => none
      | some index =>
        let cards := (detectedCards fid).getD []
        if 0 ≤ index then cards.get? index.toNat else none
    else
      let manualPre := fid ++ "-manual-"
      if strStartsWith did manualPre then
        let manualId := strDropChars did manualPre.length
        let manualEntries := ((adjustments fid).map DetectionAdjustment.manual).getD []
        (manualEntries.find? (fun e => e.id == manualId)).map ManualDetectionAdjustment.card
      else none
  | _, _ => none

/-- A sample detection used in concrete resolution scenarios. -/
noncomputable def sampleCard : DetectedCard := ⟨⟨0, 0, 1, 1⟩, [], (0, 0), (1, 1)⟩

/-! ## Folder-segment sanitisation (`utils/folders/sanitize.ts`) -/

/-- The `INVALID_CHARACTERS` class `[\\/:*?"<>|]`. -/
def isInvalidFolderChar (c : Char) : Bool :=
  decide (c ∈ ['\\', '/', ':', '*', '?', '"', '<', '>', '|'])

/-- Replace every maximal run of `p`-characters with the single
character `r` — the effect of a global `p+` regex replacement.  The
Boolean flag records whether the previous character was inside a run. -/
def collapseRuns (p : Char → Bool) (r : Char) : Bool → List Char → List Char
  | _, [] => []
  | inRun, c :: cs =>
    if p c then
      if inRun then collapseRuns p r true cs
      else r :: collapseRuns p r true cs
    else c :: collapseRuns p r false cs

/-- `String.prototype.trim()`: strip leading and trailing JavaScript
whitespace. -/
def trimWs (l : List Char) : List Char :=
  ((l.dropWhile jsWhitespaceChar).reverse.dropWhile jsWhitespaceChar).reverse

/-- `sanitizeFolderSegment` (`utils/folders/sanitize.ts`, lines 5-16):
empty in, empty out; otherwise NFKC-normalise, delete the invalid
characters, trim, turn whitespace runs into `_`, squash `_` runs, and
strip leading/trailing `_`.  `String.prototype.normalize('NFKC')` is
kept abstract as the `nfkc` argument; every stated property holds for
an arbitrary normalisation because all character filtering happens
after it. -/
def sanitizeFolderSegment (nfkc : String → String) (value : String) : String :=
  if value = "" then ""
  else
    let l1 := (nfkc value).data.filter fun c => !(isInvalidFolderChar c)
    let l2 := trimWs l1
    let l3 := collapseRuns jsWhitespaceChar '_' false l2
    let l4 := collapseRuns (fun c => c == '_') '_' false l3
    let l5 := ((l4.dropWhile (fun c => c == '_')).reverse.dropWhile
      (fun c => c == '_')).reverse
    ⟨l5⟩

/-! ## Export destination parity (`services/export.ts` lines 207-223, 262-279) -/

/-- `ManifestSide` (`services/export.ts`, lines 39-44), in
original-image coordinates. -/
structure ManifestSide where
  bbox : RectZ
  quad : List (ℤ × ℤ)
  warpSize : ℤ × ℤ
  sourceFile : Option String

/-- `ManifestEntry` (`services/export.ts`, lines 46-54). -/
structure ManifestEntry where
  pairId : String
  cardName : String
  setName : String
  folderPath : String
  files : List String
  front : Option ManifestSide
  back : Option ManifestSide

/-- What `exportSession` holds for one pair before writing: the pair's
folder segments (line 170), the rendered images (line 205), and the
manifest entry (lines 241-252) — all computed by code shared by the two
destination branches. -/
structure PairPlan where
  segments : List String
  images : List NamedImage
  manifest : ManifestEntry

/-- A file written to a destination: an encoded image blob, or a pair's
`MANIFEST.json`.  The manifest is serialised by the same
`JSON.stringify(entry, null, 2)` expression in both branches, so its
content is modelled by the entry itself. -/
inductive FileContent where
  | image (op : ImageOp)
  | manifestFile (entry : ManifestEntry)

/-- Directory export (lines 207-214 and 263-270): descend through the
pair's segment folders with `getDirectoryHandle` and write every image
under its name; after all pairs, write each `MANIFEST.json` into the
same folders when manifests are requested. -/
def dirWrites (plans : List PairPlan) (includeManifests : Bool) :
    List (List String × String × FileContent) :=
  (plans.flatMap fun p => p.images.map fun img =>
    (p.segments, img.name, FileContent.image img.op)) ++
  (if includeManifests then
    plans.map fun p => (p.segments, "MANIFEST.json", FileContent.manifestFile p.manifest)
  else [])

/-- JSZip path accumulation (lines 216-219 and 273-276): each
`folder(segment)` call appends `segment ++ "/"` to the current archive
path, and `file(name, blob)` places the entry at the accumulated path. -/
def zipPath (segments : List String) (name : String) : String :=
  segments.foldl (fun acc s => acc ++ s ++ "/") "" ++ name

/-- ZIP export (lines 215-223 and 271-279): the same traversal as the
directory branch, but into archive paths. -/
def zipWrites (plans : List PairPlan) (includeManifests : Bool) :
    List (String × FileContent) :=
  (plans.flatMap fun p => p.images.map fun img =>
    (zipPath p.segments img.name, FileContent.image img.op)) ++
  (if includeManifests then
    plans.map fun p => (zipPath p.segments "MANIFEST.json",
      FileContent.manifestFile p.manifest)
  else [])

/-- The canonical relative path `a/b/.../name` denoted by folder
segments plus a file name — the layout both destinations must realise. -/
def relPath (segments : List String) (name : String) : String :=
  segments.foldr (fun s acc => s ++ "/" ++ acc) name

/-! ## Theorems: stable sorting infrastructure -/

theorem insertByKey_perm {α β : Type} [LinearOrder β] (key : α → β) (x : α) (l : List α) :
    (insertByKey key x l).Perm (x :: l) := by
  induction l with
  | nil => simp [insertByKey]
  | cons y t ih =>
    simp only [insertByKey]
    split
    · exact (ih.cons y).trans (List.Perm.swap x y t)
    · exact List.Perm.refl _

theorem sortByKey_perm {α β : Type} [LinearOrder β] (key : α → β) (l : List α) :
    (sortByKey key l).Perm l := by
  induction l with
  | nil => simp [sortByKey]
  | cons x xs ih =>
    exact (insertByKey_perm key x (sortByKey key xs)).trans (ih.cons x)

theorem insertByKey_sorted {α β : Type} [LinearOrder β] (key : α → β) (x : α) {l : List α}
    (h : l.Sorted (fun a b => key a ≤ key b)) :
    (insertByKey key x l).Sorted (fun a b => key a ≤ key b) := by
  induction l with
  | nil => simp [insertByKey]
  | cons y t ih =>
    rw [List.sorted_cons] at h
    simp only [insertByKey]
    split
    · rename_i hlt
      rw [List.sorted_cons]
      refine ⟨fun b hb => ?_, ih h.2⟩
      rcases List.mem_cons.mp ((insertByKey_perm key x t).mem_iff.mp hb) with rfl | hb2
      · exact hlt.le
      · exact h.1 b hb2
    · rename_i hge
      rw [List.sorted_cons]
      refine ⟨fun b hb => ?_, List.sorted_cons.mpr h⟩
      rcases List.mem_cons.mp hb with rfl | hb2
      · exact le_of_not_lt hge
      · exact (le_of_not_lt hge).trans (h.1 b hb2)

theorem sortByKey_sorted {α β : Type} [LinearOrder β] (key : α → β) (l : List α) :
    (sortByKey key l).Sorted (fun a b => key a ≤ key b) := by
  induction l with
  | nil => simp [sortByKey]
  | cons x xs ih => exact insertByKey_sorted key x ih

theorem sorted_key_strict {α β : Type} [LinearOrder β] (key : α → β) {l : List α}
    (s : l.Sorted (fun a b => key a ≤ key b))
    (d : l.Pairwise (fun a b => key a ≠ key b)) :
    l.Sorted (fun a b => key a < key b) :=
  (s.and d).imp fun h => lt_of_le_of_ne h.1 h.2

theorem sorted_key_unique {α β : Type} [LinearOrder β] (key : α → β) {l₁ l₂ : List α}
    (h : l₁.Perm l₂)
    (s₁ : l₁.Sorted (fun a b => key a < key b))
    (s₂ : l₂.Sorted (fun a b => key a < key b)) : l₁ = l₂ :=
  h.eq_of_sorted (fun a b _ _ h1 h2 => absurd h2 (lt_asymm h1)) s₁ s₂

theorem list_eq_four {γ : Type} {l : List γ} (h : l.length = 4) :
    ∃ a b c d, l = [a, b, c, d] := by
  rcases l with _ | ⟨a, _ | ⟨b, _ | ⟨c, _ | ⟨d, _ | ⟨e, t⟩⟩⟩⟩⟩ <;> simp_all

/-! ## Theorems: quad ordering (claim C1) -/

theorem orderQuadPoints_eq_of {α : Type} [LinearOrderedField α]
    (points : List (α × α)) (a b c d m0 m1 : α × α)
    (h4 : points.length = 4)
    (hs : sortByKey (fun p : α × α => p.1 + p.2) points = [a, b, c, d])
    (hm : sortByKey Prod.fst [b, c] = [m0, m1]) :
    orderQuadPoints points = [a, m0, d, m1] := by
  unfold orderQuadPoints
  rw [if_pos h4, hs]
  show [List.getD [a, b, c, d] 0 (0, 0),
        List.getD (sortByKey Prod.fst ((List.drop 1 [a, b, c, d]).take 2)) 0 (0, 0),
        List.getD [a, b, c, d] 3 (0, 0),
        List.getD (sortByKey Prod.fst ((List.drop 1 [a, b, c, d]).take 2)) 1 (0, 0)] =
       [a, m0, d, m1]
  have hdt : ((List.drop 1 [a, b, c, d]).take 2) = [b, c] := rfl
  rw [hdt, hm]
  rfl

theorem orderQuad_aux (points : List (ℚ × ℚ)) (a b c d m0 m1 : ℚ × ℚ)
    (h4 : points.length = 4)
    (hs : sortByKey (fun p : ℚ × ℚ => p.1 + p.2) points = [a, b, c, d])
    (hm : sortByKey Prod.fst [b, c] = [m0, m1])
    (hmperm : ([m0, m1] : List (ℚ × ℚ)).Perm [b, c])
    (hmx : m0.1 ≤ m1.1)
    (hd : points.Pairwise (fun p q : ℚ × ℚ => p.1 + p.2 ≠ q.1 + q.2)) :
    (orderQuadPoints points).Perm points ∧
    (∃ tl tr br bl, orderQuadPoints points = [tl, tr, br, bl] ∧
      (∀ p ∈ points, tl.1 + tl.2 ≤ p.1 + p.2) ∧
      (∀ p ∈ points, p.1 + p.2 ≤ br.1 + br.2) ∧
      tr.1 ≤ bl.1) ∧
    orderQuadPoints (orderQuadPoints points) = orderQuadPoints points := by
  have hsymm : ∀ {x y : ℚ × ℚ}, x.1 + x.2 ≠ y.1 + y.2 → y.1 + y.2 ≠ x.1 + x.2 :=
    fun h => h.symm
  have hperm : ([a, b, c, d] : List (ℚ × ℚ)).Perm points := by
    rw [← hs]; exact sortByKey_perm _ points
  have hsorted : ([a, b, c, d] : List (ℚ × ℚ)).Sorted
      (fun p q : ℚ × ℚ => p.1 + p.2 ≤ q.1 + q.2) := by
    rw [← hs]; exact sortByKey_sorted _ points
  have hd4 : ([a, b, c, d] : List (ℚ × ℚ)).Pairwise
      (fun p q : ℚ × ℚ => p.1 + p.2 ≠ q.1 + q.2) :=
    (hperm.pairwise_iff hsymm).mpr hd
  have hstrict : ([a, b, c, d] : List (ℚ × ℚ)).Sorted
      (fun p q : ℚ × ℚ => p.1 + p.2 < q.1 + q.2) :=
    sorted_key_strict (fun p : ℚ × ℚ => p.1 + p.2) hsorted hd4
  have hflat : (a.1 + a.2 < b.1 + b.2) ∧ (a.1 + a.2 < c.1 + c.2) ∧
      (a.1 + a.2 < d.1 + d.2) ∧ (b.1 + b.2 < c.1 + c.2) ∧
      (b.1 + b.2 < d.1 + d.2) ∧ (c.1 + c.2 < d.1 + d.2) := by
    have h := hstrict
    simp only [List.Sorted, List.pairwise_cons, List.mem_cons,
      List.not_mem_nil, or_false] at h
    obtain ⟨h1, h2, h3, _⟩ := h
    exact ⟨h1 b (Or.inl rfl), h1 c (Or.inr (Or.inl rfl)), h1 d (Or.inr (Or.inr rfl)),
      h2 c (Or.inl rfl), h2 d (Or.inr rfl), h3 d rfl⟩
  obtain ⟨hab, hac, had, hbc, hbd, hcd⟩ := hflat
  have hres : orderQuadPoints points = [a, m0, d, m1] :=
    orderQuadPoints_eq_of points a b c d m0 m1 h4 hs hm
  have hpermMid : ([m0, d, m1] : List (ℚ × ℚ)).Perm [b, c, d] := by
    have h1 : ([m0, d, m1] : List (ℚ × ℚ)).Perm [m0, m1, d] :=
      (List.Perm.swap m1 d []).cons m0
    have h2 : ([m0, m1, d] : List (ℚ × ℚ)).Perm [b, c, d] :=
      hmperm.append_right [d]
    exact h1.trans h2
  have hpermQ : ([a, m0, d, m1] : List (ℚ × ℚ)).Perm [a, b, c, d] :=
    hpermMid.cons a
  have hpermPoints : (orderQuadPoints points).Perm points := by
    rw [hres]; exact hpermQ.trans hperm
  have hmem : ∀ p ∈ points, p = a ∨ p = b ∨ p = c ∨ p = d := by
    intro p hp
    have := hperm.symm.subset hp
    simpa using this
  have hmin : ∀ p ∈ points, a.1 + a.2 ≤ p.1 + p.2 := by
    intro p hp
    rcases hmem p hp with rfl | rfl | rfl | rfl
    · exact le_refl _
    · exact hab.le
    · exact hac.le
    · exact had.le
  have hmax : ∀ p ∈ points, p.1 + p.2 ≤ d.1 + d.2 := by
    intro p hp
    rcases hmem p hp with rfl | rfl | rfl | rfl
    · exact had.le
    · exact hbd.le
    · exact hcd.le
    · exact le_refl _
  have hd4q : ([a, m0, d, m1] : List (ℚ × ℚ)).Pairwise
      (fun p q : ℚ × ℚ => p.1 + p.2 ≠ q.1 + q.2) :=
    (hpermQ.pairwise_iff hsymm).mpr hd4
  have hsortQstrict : (sortByKey (fun p : ℚ × ℚ => p.1 + p.2) [a, m0, d, m1]).Sorted
      (fun p q : ℚ × ℚ => p.1 + p.2 < q.1 + q.2) :=
    sorted_key_strict _ (sortByKey_sorted _ _)
      (((sortByKey_perm _ _).pairwise_iff hsymm).mpr hd4q)
  have hsortQ : sortByKey (fun p : ℚ × ℚ => p.1 + p.2) [a, m0, d, m1] = [a, b, c, d] :=
    sorted_key_unique (fun p : ℚ × ℚ => p.1 + p.2)
      ((sortByKey_perm _ _).trans hpermQ) hsortQstrict hstrict
  have hidem : orderQuadPoints [a, m0, d, m1] = [a, m0, d, m1] :=
    orderQuadPoints_eq_of [a, m0, d, m1] a b c d m0 m1 (by simp) hsortQ hm
  exact ⟨hpermPoints, ⟨a, m0, d, m1, hres, hmin, hmax, hmx⟩, by rw [hres, hidem]⟩

/-- Claim C1 (amended): for every list of exactly 4 points whose
coordinate sums `x + y` are pairwise distinct, `orderQuadPoints` returns
the same 4 points (a permutation) arranged with the smallest-sum point
first and the largest-sum point third, the two middle points ordered by
ascending `x` (top-right before bottom-left), and the function is
idempotent on such inputs.  (Without the distinct-sum hypothesis
idempotence fails, see the counterexample.) -/
theorem orderQuadPoints_ordering_and_idempotent (points : List (ℚ × ℚ))
    (h4 : points.length = 4)
    (hd : points.Pairwise (fun p q : ℚ × ℚ => p.1 + p.2 ≠ q.1 + q.2)) :
    (orderQuadPoints points).Perm points ∧
    (∃ tl tr br bl, orderQuadPoints points = [tl, tr, br, bl] ∧
      (∀ p ∈ points, tl.1 + tl.2 ≤ p.1 + p.2) ∧
      (∀ p ∈ points, p.1 + p.2 ≤ br.1 + br.2) ∧
      tr.1 ≤ bl.1) ∧
    orderQuadPoints (orderQuadPoints points) = orderQuadPoints points := by
  obtain ⟨a, b, c, d, hs⟩ :=
    list_eq_four ((sortByKey_perm (fun p : ℚ × ℚ => p.1 + p.2) points).length_eq.trans h4)
  by_cases hbc : c.1 < b.1
  · exact orderQuad_aux points a b c d c b h4 hs
      (by simp [sortByKey, insertByKey, hbc]) (List.Perm.swap b c []) hbc.le hd
  · exact orderQuad_aux points a b c d b c h4 hs
      (by simp [sortByKey, insertByKey, hbc]) (List.Perm.refl _) (le_of_not_lt hbc) hd

/-- Witness for C1 at the concrete quad
`[(0,0), (2,0), (3,1), (1,0)]` (sums 0, 2, 4, 1 pairwise distinct). -/
theorem orderQuadPoints_ordering_and_idempotent_witness :
    ([((0 : ℚ), 0), (2, 0), (3, 1), (1, 0)] : List (ℚ × ℚ)).length = 4 ∧
    ([((0 : ℚ), 0), (2, 0), (3, 1), (1, 0)] : List (ℚ × ℚ)).Pairwise
      (fun p q : ℚ × ℚ => p.1 + p.2 ≠ q.1 + q.2) ∧
    ((orderQuadPoints [((0 : ℚ), 0), (2, 0), (3, 1), (1, 0)]).Perm
        [((0 : ℚ), 0), (2, 0), (3, 1), (1, 0)] ∧
      (∃ tl tr br bl,
        orderQuadPoints [((0 : ℚ), 0), (2, 0), (3, 1), (1, 0)] = [tl, tr, br, bl] ∧
        (∀ p ∈ ([((0 : ℚ), 0), (2, 0), (3, 1), (1, 0)] : List (ℚ × ℚ)),
          tl.1 + tl.2 ≤ p.1 + p.2) ∧
        (∀ p ∈ ([((0 : ℚ), 0), (2, 0), (3, 1), (1, 0)] : List (ℚ × ℚ)),
          p.1 + p.2 ≤ br.1 + br.2) ∧
        tr.1 ≤ bl.1) ∧
      orderQuadPoints (orderQuadPoints [((0 : ℚ), 0), (2, 0), (3, 1), (1, 0)]) =
        orderQuadPoints [((0 : ℚ), 0), (2, 0), (3, 1), (1, 0)]) :=
  ⟨rfl, by norm_num [List.pairwise_cons],
    orderQuadPoints_ordering_and_idempotent _ rfl (by norm_num [List.pairwise_cons])⟩

/-- Counterexample to C1 as stated: on the 4-point list
`[(0,0), (0,2), (2,0), (1,1)]` (three points share the coordinate sum 2)
`orderQuadPoints` is not idempotent — the first application returns
`[(0,0), (0,2), (1,1), (2,0)]`, the second `[(0,0), (0,2), (2,0), (1,1)]`. -/
theorem orderQuadPoints_not_idempotent :
    orderQuadPoints (orderQuadPoints [((0 : ℚ), 0), (0, 2), (2, 0), (1, 1)]) ≠
      orderQuadPoints [((0 : ℚ), 0), (0, 2), (2, 0), (1, 1)] := by
  norm_num [orderQuadPoints, sortByKey, insertByKey]

/-! ## Theorems: bounding-box clamping (claim C5) -/

/-- Claim C5: for every rectangle and image dimensions `W, H ≥ 1`,
`clampRect` returns a rectangle lying fully inside `[0,W) × [0,H)`
(non-negative origin, `x + width ≤ W`, `y + height ≤ H`) with width and
height at least 1, and re-clamping its own output leaves it unchanged
(idempotence). -/
theorem clampRect_bounds_and_idempotent (r : RectQ) (W H : ℤ)
    (hW : 1 ≤ W) (hH : 1 ≤ H) :
    0 ≤ (clampRect r W H).x ∧ 1 ≤ (clampRect r W H).width ∧
    (clampRect r W H).x + (clampRect r W H).width ≤ W ∧
    0 ≤ (clampRect r W H).y ∧ 1 ≤ (clampRect r W H).height ∧
    (clampRect r W H).y + (clampRect r W H).height ≤ H ∧
    clampRect (clampRect r W H).toQ W H = clampRect r W H := by
  simp only [clampRect, RectZ.toQ, round_intCast, RectZ.mk.injEq]
  omega

/-- Witness for C5: the rectangle `(-11/2, 3, 1000, 1/4)` clamped into a
10×8 image. -/
theorem clampRect_bounds_and_idempotent_witness :
    (1 : ℤ) ≤ 10 ∧ (1 : ℤ) ≤ 8 ∧
    (0 ≤ (clampRect ⟨-11/2, 3, 1000, 1/4⟩ 10 8).x ∧
      1 ≤ (clampRect ⟨-11/2, 3, 1000, 1/4⟩ 10 8).width ∧
      (clampRect ⟨-11/2, 3, 1000, 1/4⟩ 10 8).x +
        (clampRect ⟨-11/2, 3, 1000, 1/4⟩ 10 8).width ≤ 10 ∧
      0 ≤ (clampRect ⟨-11/2, 3, 1000, 1/4⟩ 10 8).y ∧
      1 ≤ (clampRect ⟨-11/2, 3, 1000, 1/4⟩ 10 8).height ∧
      (clampRect ⟨-11/2, 3, 1000, 1/4⟩ 10 8).y +
        (clampRect ⟨-11/2, 3, 1000, 1/4⟩ 10 8).height ≤ 8 ∧
      clampRect (clampRect ⟨-11/2, 3, 1000, 1/4⟩ 10 8).toQ 10 8 =
        clampRect ⟨-11/2, 3, 1000, 1/4⟩ 10 8) :=
  ⟨by norm_num, by norm_num,
    clampRect_bounds_and_idempotent ⟨-11/2, 3, 1000, 1/4⟩ 10 8 (by norm_num) (by norm_num)⟩

/-! ## Theorems: warped-crop emission (claim C4) -/

theorem processSide_warped_aux (payload : SidePayload) (format extension : String)
    (quality : ℚ) (includeWarped : Bool) :
    (∀ img ∈ processSide payload format extension quality includeWarped,
        img.isWarped = true →
      (payload.side = SideTag.front ∧ includeWarped = true ∧ payload.quad.length = 4) ∧
        img.name = "FRONT_WARPED." ++ extension) ∧
    ((payload.side = SideTag.front ∧ includeWarped = true ∧ payload.quad.length = 4) →
      ∃ img ∈ processSide payload format extension quality includeWarped,
        img.isWarped = true) := by
  simp only [processSide]
  split
  · rename_i hcond
    constructor
    · intro img hmem hw
      rcases List.mem_append.mp hmem with hmem | hmem
      · exfalso
        rcases List.mem_cons.mp hmem with rfl | hmem
        · simp [NamedImage.isWarped] at hw
        · obtain ⟨pr, _, rfl⟩ := List.mem_map.mp hmem
          simp [NamedImage.isWarped] at hw
      · rcases List.mem_cons.mp hmem with rfl | hmem
        · refine ⟨hcond, ?_⟩
          simp [hcond.1]
        · simp at hmem
    · intro _
      exact ⟨⟨(if payload.side = SideTag.front then "FRONT" else "BACK") ++
          "_WARPED." ++ extension, createWarpedBlob payload format quality⟩,
        List.mem_append_right _ (List.mem_singleton.mpr rfl),
        by simp [NamedImage.isWarped, createWarpedBlob]⟩
  · rename_i hcond
    constructor
    · intro img hmem hw
      exfalso
      rcases List.mem_cons.mp hmem with rfl | hmem
      · simp [NamedImage.isWarped] at hw
      · obtain ⟨pr, _, rfl⟩ := List.mem_map.mp hmem
        simp [NamedImage.isWarped] at hw
    · intro h
      exact absurd h hcond

/-- Claim C4: `processPair` emits a WARPED image exactly when the
request carries a front payload tagged as the front side, `includeWarped`
is set, and that payload's quad has exactly 4 points; every warped
output is named `FRONT_WARPED.{ext}`, so no warped crop is ever
produced for the back side, whatever the flags. -/
theorem processPair_warped_iff (req : PairRequest) :
    ((∃ img ∈ processPair req, img.isWarped = true) ↔
      (∃ f, req.front = some f ∧ f.side = SideTag.front ∧
        req.includeWarped = true ∧ f.quad.length = 4)) ∧
    (∀ img ∈ processPair req, img.isWarped = true →
      img.name = "FRONT_WARPED." ++ req.fileExtension) := by
  rcases hf : req.front with _ | f <;> rcases hb : req.back with _ | b <;>
    simp only [processPair, hf, hb, List.append_nil, List.nil_append]
  · constructor
    · constructor
      · rintro ⟨img, hmem, _⟩
        simp at hmem
      · rintro ⟨f, hmem, _⟩
        simp at hmem
    · intro img hmem
      simp at hmem
  · obtain ⟨hba, _⟩ := processSide_warped_aux b req.format req.fileExtension
      (min 1 (max 0 req.quality)) false
    constructor
    · constructor
      · rintro ⟨img, hmem, hw⟩
        obtain ⟨⟨_, hfalse, _⟩, _⟩ := hba img hmem hw
        exact absurd hfalse (by simp)
      · rintro ⟨f, hmem, _⟩
        simp at hmem
    · intro img hmem hw
      exact (hba img hmem hw).2
  · obtain ⟨hfa, hfb⟩ := processSide_warped_aux f req.format req.fileExtension
      (min 1 (max 0 req.quality)) req.includeWarped
    constructor
    · constructor
      · rintro ⟨img, hmem, hw⟩
        obtain ⟨⟨h1, h2, h3⟩, _⟩ := hfa img hmem hw
        exact ⟨f, rfl, h1, h2, h3⟩
      · rintro ⟨f2, hf2, h1, h2, h3⟩
        obtain rfl : f = f2 := by injection hf2
        exact hfb ⟨h1, h2, h3⟩
    · intro img hmem hw
      exact (hfa img hmem hw).2
  · obtain ⟨hfa, hfb⟩ := processSide_warped_aux f req.format req.fileExtension
      (min 1 (max 0 req.quality)) req.includeWarped
    obtain ⟨hba, _⟩ := processSide_warped_aux b req.format req.fileExtension
      (min 1 (max 0 req.quality)) false
    constructor
    · constructor
      · rintro ⟨img, hmem, hw⟩
        rcases List.mem_append.mp hmem with hmem | hmem
        · obtain ⟨⟨h1, h2, h3⟩, _⟩ := hfa img hmem hw
          exact ⟨f, rfl, h1, h2, h3⟩
        · obtain ⟨⟨_, hfalse, _⟩, _⟩ := hba img hmem hw
          exact absurd hfalse (by simp)
      · rintro ⟨f2, hf2, h1, h2, h3⟩
        obtain rfl : f = f2 := by injection hf2
        obtain ⟨img, hmem, hw⟩ := hfb ⟨h1, h2, h3⟩
        exact ⟨img, List.mem_append_left _ hmem, hw⟩
    · intro img hmem hw
      rcases List.mem_append.mp hmem with hmem | hmem
      · exact (hfa img hmem hw).2
      · exact (hba img hmem hw).2

/-- Claim C6: for a pair request with a single front side (bbox
`{x:100, y:100, width:400, height:600}` on a 1600×1200 original, format
jpeg — MIME `image/jpeg`, extension `jpg` — quality 92 (normalized to
92/100), `includeWarped` set, and a 4-point quad), the export renderer
produces exactly the 6 images `FRONT_LISTING.jpg`, `FRONT_TOP_LEFT.jpg`,
`FRONT_TOP_RIGHT.jpg`, `FRONT_BOTTOM_LEFT.jpg`, `FRONT_BOTTOM_RIGHT.jpg`
and `FRONT_WARPED.jpg`, in this order. -/
theorem processPair_front_six_files :
    (processPair
      ⟨"image/jpeg", "jpg", 92 / 100, true,
        some ⟨SideTag.front, 1600, 1200, ⟨100, 100, 400, 600⟩,
          [(100, 100), (500, 100), (500, 700), (100, 700)], (400, 600)⟩,
        none⟩).map NamedImage.name =
      ["FRONT_LISTING.jpg", "FRONT_TOP_LEFT.jpg", "FRONT_TOP_RIGHT.jpg",
       "FRONT_BOTTOM_LEFT.jpg", "FRONT_BOTTOM_RIGHT.jpg", "FRONT_WARPED.jpg"] := by
  rfl

/-! ## Theorems: pairing matcher (claim C3) -/

theorem ctd_aux (back : List AdjustedCardEntry) (front : List AdjustedCardEntry) :
    ∀ (n : ℕ) (acc : ℝ),
      (front.enumFrom n).foldl
        (fun total pr =>
          match back.get? pr.1 with
          | none => total
          | some partner => total + euclidDist pr.2.card.centerNorm partner.card.centerNorm)
        acc =
      acc + ((front.zip (back.drop n)).map
        (fun pr => euclidDist pr.1.card.centerNorm pr.2.card.centerNorm)).sum := by
  induction front with
  | nil => intro n acc; simp
  | cons x xs ih =>
    intro n acc
    cases hbn : back.get? n with
    | none =>
      have hlen : back.length ≤ n := List.get?_eq_none.mp hbn
      have hdrop : back.drop n = [] := List.drop_eq_nil_of_le hlen
      have hdrop1 : back.drop (n + 1) = [] :=
        List.drop_eq_nil_of_le (hlen.trans (Nat.le_succ n))
      simp only [List.enumFrom, List.foldl_cons, hbn, hdrop, hdrop1, ih (n + 1) acc]
      simp
    | some p =>
      have hlt : n < back.length := by
        by_contra hge
        rw [List.get?_eq_none.mpr (le_of_not_lt hge)] at hbn
        exact Option.noConfusion hbn
      have hdrop : back.drop n = p :: back.drop (n + 1) := by
        have := List.drop_eq_getElem_cons hlt
        rwa [show back[n] = p from by
          have := List.get?_eq_getElem? back n
          rw [hbn, List.getElem?_eq_getElem hlt] at this
          exact (Option.some.injEq _ _).mp this.symm] at this
      simp only [List.enumFrom, List.foldl_cons, hbn, hdrop, List.zip_cons_cons,
        List.map_cons, List.sum_cons, ih (n + 1)]
      ring

theorem computeTotalDistance_eq_zip_sum (front back : List AdjustedCardEntry) :
    computeTotalDistance front back =
      ((front.zip back).map
        (fun pr => euclidDist pr.1.card.centerNorm pr.2.card.centerNorm)).sum := by
  have h := ctd_aux back front 0 0
  simpa [computeTotalDistance, List.enum] using h

/-- Claim C3: the forward distance is the sum over paired indices of the
Euclidean distance between front and back normalized centers, the
reversed distance is the same sum against the reversed back list, both
are `+∞` exactly when the front list is empty or the lengths differ,
and reversing is recommended exactly when the reversed distance is
strictly smaller than the forward one. -/
theorem pairing_distances_spec (front back : List AdjustedCardEntry) :
    autoPairDistances front back =
      (if front.length = 0 ∨ front.length ≠ back.length
       then ((⊤ : EReal), (⊤ : EReal))
       else
        (((((front.zip back).map
            (fun pr => euclidDist pr.1.card.centerNorm pr.2.card.centerNorm)).sum : ℝ) : EReal),
         ((((front.zip back.reverse).map
            (fun pr => euclidDist pr.1.card.centerNorm pr.2.card.centerNorm)).sum : ℝ) : EReal))) ∧
    (reverseRecommended front back ↔
      (autoPairDistances front back).2 < (autoPairDistances front back).1) := by
  constructor
  · unfold autoPairDistances
    split
    · rfl
    · rw [computeTotalDistance_eq_zip_sum front back,
        computeTotalDistance_eq_zip_sum front back.reverse]
  · exact Iff.rfl

/-! ## Theorems: detector area threshold and invariants (claims C2, C9) -/

theorem orderQuadPoints_perm_any {α : Type} [LinearOrderedField α]
    (points : List (α × α)) : (orderQuadPoints points).Perm points := by
  by_cases h4 : points.length = 4
  · obtain ⟨a, b, c, d, hs⟩ :=
      list_eq_four ((sortByKey_perm (fun p : α × α => p.1 + p.2) points).length_eq.trans h4)
    have hperm : ([a, b, c, d] : List (α × α)).Perm points := by
      rw [← hs]; exact sortByKey_perm _ points
    have hm : sortByKey Prod.fst [b, c] = [c, b] ∨ sortByKey Prod.fst [b, c] = [b, c] := by
      simp only [sortByKey, insertByKey]
      split_ifs <;> simp
    rcases hm with hm | hm
    · rw [orderQuadPoints_eq_of points a b c d c b h4 hs hm]
      refine List.Perm.trans (List.Perm.cons a ?_) hperm
      exact List.perm_append_singleton b [c, d]
    · rw [orderQuadPoints_eq_of points a b c d b c h4 hs hm]
      refine List.Perm.trans (List.Perm.cons a (List.Perm.cons b ?_)) hperm
      exact List.Perm.swap c d []
  · simp [orderQuadPoints, h4]

/-- Counterexample to C2 as stated: at 1000×1000 the threshold is
`max(250000, 15000) = 250000`, i.e. 25% of the image.  A rectangle of
250×250 = 62500 px² covers more than 5% of the image, yet its contour
is discarded and the detector returns the empty list instead of one
detection. -/
theorem detectCards_five_percent_rectangle_missed :
    (5 / 100 : ℝ) * (1000 * 1000) ≤ 62500 ∧
    detectCards 1000 1000
      [⟨62500, ⟨(500, 500), (250, 250), 0⟩, ⟨375, 375, 250, 250⟩⟩] = [] := by
  refine ⟨by norm_num, ?_⟩
  have hlt : (62500 : ℝ) < areaThreshold 1000 1000 := by
    unfold areaThreshold
    rw [max_eq_left (by norm_num)]
    norm_num
  simp [detectCards, processContour, hlt, sortByKey]

/-- Claim C2 (amended): the detector discards every contour whose area
is below `max(250000, 0.015·w·h)`; a run with no contours (an all-black
image yields none) returns the empty list; and at 1000×1000 a single
rectangle contour whose area `rcw·rch` reaches the 250000 threshold —
i.e. covers at least 25% of the image, not 5% — yields exactly one
detection whose `warpSize` is the rectangle's dimensions within
rounding (and at least 1). -/
theorem detectCards_area_threshold_spec (w h : ℕ) (cs : List ContourInfo)
    (rcw rch cx cy : ℝ) (bb : RectZ)
    (harea : areaThreshold 1000 1000 ≤ rcw * rch) :
    detectCards w h [] = [] ∧
    (∀ c ∈ cs, c.area < areaThreshold w h → processContour w h c = none) ∧
    (detectCards w h cs).Perm (cs.filterMap (processContour w h)) ∧
    ∃ card, detectCards 1000 1000 [⟨rcw * rch, ⟨(cx, cy), (rcw, rch), 0⟩, bb⟩] = [card] ∧
      card.warpSize = (max 1 (round rcw), max 1 (round rch)) ∧ card.bbox = bb := by
  refine ⟨by simp [detectCards, sortByKey], ?_, ?_, ?_⟩
  · intro c _ hlt
    simp [processContour, hlt]
  · exact sortByKey_perm _ _
  · have hsome : processContour 1000 1000 ⟨rcw * rch, ⟨(cx, cy), (rcw, rch), 0⟩, bb⟩ =
        some
          { bbox := bb
            quad := buildQuadFromRect ⟨(cx, cy), (rcw, rch), 0⟩
            centerNorm := (cx / ((1000 : ℕ) : ℝ), cy / ((1000 : ℕ) : ℝ))
            warpSize := (max 1 (round rcw), max 1 (round rch)) } := by
      simp [processContour, not_lt.mpr harea]
    refine ⟨{ bbox := bb
              quad := buildQuadFromRect ⟨(cx, cy), (rcw, rch), 0⟩
              centerNorm := (cx / ((1000 : ℕ) : ℝ), cy / ((1000 : ℕ) : ℝ))
              warpSize := (max 1 (round rcw), max 1 (round rch)) }, ?_, rfl, rfl⟩
    simp [detectCards, hsome, sortByKey, insertByKey]

/-- Witness for C2 at a 600×600 rectangle (area 360000 ≥ 250000) in a
1000×1000 image. -/
theorem detectCards_area_threshold_spec_witness :
    areaThreshold 1000 1000 ≤ (600 : ℝ) * 600 ∧
    (detectCards 1000 1000 [] = [] ∧
      (∀ c ∈ ([] : List ContourInfo), c.area < areaThreshold 1000 1000 →
        processContour 1000 1000 c = none) ∧
      (detectCards 1000 1000 ([] : List ContourInfo)).Perm
        (([] : List ContourInfo).filterMap (processContour 1000 1000)) ∧
      ∃ card, detectCards 1000 1000
          [⟨(600 : ℝ) * 600, ⟨(500, 500), (600, 600), 0⟩, ⟨200, 200, 600, 600⟩⟩] = [card] ∧
        card.warpSize = (max 1 (round (600 : ℝ)), max 1 (round (600 : ℝ))) ∧
        card.bbox = ⟨200, 200, 600, 600⟩) :=
  ⟨by unfold areaThreshold; rw [max_eq_left (by norm_num)]; norm_num,
    detectCards_area_threshold_spec 1000 1000 [] 600 600 500 500 ⟨200, 200, 600, 600⟩
      (by unfold areaThreshold; rw [max_eq_left (by norm_num)]; norm_num)⟩

/-- Counterexample to C9 as stated: a card-sized contour whose
minimum-area rectangle is centered at (450, 50) with size 500×200 and
angle 45° (a card clipped by the top image edge) passes the area
threshold, and the resulting detection's quad contains a point with a
negative y coordinate — `buildQuadFromRect` does not clamp. -/
theorem detectCards_negative_quad_point :
    ∃ card ∈ detectCards 1000 1000
      [⟨300000, ⟨(450, 50), (500, 200), 45⟩, ⟨200, 0, 500, 300⟩⟩],
      ∃ p ∈ card.quad, p.2 < 0 := by
  have hng : ¬((300000 : ℝ) < areaThreshold 1000 1000) := by
    unfold areaThreshold
    rw [max_eq_left (by norm_num)]
    norm_num
  have hdet : detectCards 1000 1000
      [⟨300000, ⟨(450, 50), (500, 200), 45⟩, ⟨200, 0, 500, 300⟩⟩] =
      [{ bbox := ⟨200, 0, 500, 300⟩
         quad := buildQuadFromRect ⟨(450, 50), (500, 200), 45⟩
         centerNorm := ((450 : ℝ) / ((1000 : ℕ) : ℝ), (50 : ℝ) / ((1000 : ℕ) : ℝ))
         warpSize := (max 1 (round (500 : ℝ)), max 1 (round (200 : ℝ))) }] := by
    simp [detectCards, processContour, hng, sortByKey, insertByKey]
  refine ⟨_, by rw [hdet]; exact List.mem_singleton.mpr rfl, ?_⟩
  show ∃ p ∈ buildQuadFromRect ⟨(450, 50), (500, 200), 45⟩, p.2 < 0
  unfold buildQuadFromRect
  have hrad : (45 : ℝ) * Real.pi / 180 = Real.pi / 4 := by ring
  refine ⟨(-((500 : ℝ) / 2) * Real.cos ((45 : ℝ) * Real.pi / 180) -
      -((200 : ℝ) / 2) * Real.sin ((45 : ℝ) * Real.pi / 180) + 450,
      -((500 : ℝ) / 2) * Real.sin ((45 : ℝ) * Real.pi / 180) +
      -((200 : ℝ) / 2) * Real.cos ((45 : ℝ) * Real.pi / 180) + 50), ?_, ?_⟩
  · refine (orderQuadPoints_perm_any _).mem_iff.mpr ?_
    simp only [List.map_cons, List.map_nil]
    exact List.mem_cons_self _ _
  · have hsq : (1.4 : ℝ) < Real.sqrt 2 := by
      have h2 : Real.sqrt 2 ^ 2 = 2 := Real.sq_sqrt (by norm_num)
      nlinarith [Real.sqrt_nonneg 2]
    rw [hrad, Real.sin_pi_div_four, Real.cos_pi_div_four]
    nlinarith [hsq]

/-- Claim C9 (amended): every `DetectedCard` produced by the detector
has `warpSize` width and height at least 1, and its bounding-box fields
are non-negative whenever the contour bounding rectangles coming out of
contour extraction are (OpenCV's `boundingRect` of an in-image contour
always is); quad points, by contrast, are not clamped and can be
negative when the minimum-area rectangle extends past the image origin
(see the counterexample). -/
theorem detectCards_warp_and_bbox_invariants (w h : ℕ) (cs : List ContourInfo)
    (hbb : ∀ c ∈ cs, 0 ≤ c.boundingRect.x ∧ 0 ≤ c.boundingRect.y ∧
      0 ≤ c.boundingRect.width ∧ 0 ≤ c.boundingRect.height) :
    ∀ card ∈ detectCards w h cs,
      1 ≤ card.warpSize.1 ∧ 1 ≤ card.warpSize.2 ∧
      0 ≤ card.bbox.x ∧ 0 ≤ card.bbox.y ∧
      0 ≤ card.bbox.width ∧ 0 ≤ card.bbox.height := by
  intro card hcard
  rw [detectCards] at hcard
  have hmem : card ∈ cs.filterMap (processContour w h) :=
    (sortByKey_perm _ _).mem_iff.mp hcard
  obtain ⟨c, hc, hpc⟩ := List.mem_filterMap.mp hmem
  rw [processContour] at hpc
  split at hpc
  · exact absurd hpc (by simp)
  · obtain rfl := Option.some.inj hpc
    refine ⟨le_max_left 1 _, le_max_left 1 _, ?_, ?_, ?_, ?_⟩ <;>
      simp [hbb c hc |>.1, (hbb c hc).2.1, (hbb c hc).2.2.1, (hbb c hc).2.2.2]

/-- Witness for C9 at a single above-threshold contour with a
non-negative bounding rectangle in a 1000×1000 image. -/
theorem detectCards_warp_and_bbox_invariants_witness :
    (∀ c ∈ [(⟨300000, ⟨(500, 500), (600, 600), 0⟩, ⟨200, 200, 600, 600⟩⟩ : ContourInfo)],
      0 ≤ c.boundingRect.x ∧ 0 ≤ c.boundingRect.y ∧
      0 ≤ c.boundingRect.width ∧ 0 ≤ c.boundingRect.height) ∧
    (∀ card ∈ detectCards 1000 1000
        [⟨300000, ⟨(500, 500), (600, 600), 0⟩, ⟨200, 200, 600, 600⟩⟩],
      1 ≤ card.warpSize.1 ∧ 1 ≤ card.warpSize.2 ∧
      0 ≤ card.bbox.x ∧ 0 ≤ card.bbox.y ∧
      0 ≤ card.bbox.width ∧ 0 ≤ card.bbox.height) :=
  ⟨by intro c hc; simp at hc; subst hc; norm_num,
    detectCards_warp_and_bbox_invariants 1000 1000 _
      (by intro c hc; simp at hc; subst hc; norm_num)⟩

/-! ## Theorems: detection reference resolution (claim C7) -/

theorem takeWhile_all {p : Char → Bool} : ∀ {l : List Char},
    (∀ c ∈ l, p c = true) → l.takeWhile p = l
  | [], _ => rfl
  | c :: cs, h => by
    rw [List.takeWhile_cons, if_pos (h c (List.mem_cons_self c cs))]
    rw [takeWhile_all fun d hd => h d (List.mem_cons_of_mem c hd)]

theorem digit_not_ws {c : Char} (h : isDigitChar c = true) :
    jsWhitespaceChar c = false := by
  simp only [isDigitChar, decide_eq_true_eq] at h
  simp only [jsWhitespaceChar, decide_eq_false_iff_not]
  intro hmem
  simp only [List.mem_cons, List.not_mem_nil, or_false] at hmem
  rcases hmem with h9 | h9 | h9 | h9 | h9 | h9 | h9 | h9 | h9 | h9 | h9 | h9 |
    h9 | h9 | h9 | h9 | h9 | h9 | h9 | h9 | h9 | h9 | h9 | h9 | h9 <;> omega

theorem digit_ne_minus {c : Char} (h : isDigitChar c = true) : c ≠ '-' := by
  intro heq
  subst heq
  exact absurd h (by decide)

theorem digit_ne_plus {c : Char} (h : isDigitChar c = true) : c ≠ '+' := by
  intro heq
  subst heq
  exact absurd h (by decide)

theorem jsParseInt_digits (ds : List Char) (hne : ds ≠ [])
    (hdig : ∀ c ∈ ds, isDigitChar c = true) :
    jsParseInt ⟨ds⟩ = some ((digitsToNat ds : ℕ) : ℤ) := by
  cases ds with
  | nil => exact absurd rfl hne
  | cons c cs =>
    have hc : isDigitChar c = true := hdig c (List.mem_cons_self c cs)
    have hdw : (c :: cs).dropWhile jsWhitespaceChar = c :: cs := by
      rw [List.dropWhile_cons, if_neg (by simp [digit_not_ws hc])]
    have hdata : (String.mk (c :: cs)).data = c :: cs := rfl
    simp [jsParseInt, hdata, hdw, digit_ne_minus hc, digit_ne_plus hc,
      takeWhile_all hdig]

/-- Counterexample to C7 as stated: the reference `"f-card-0junk"` is
neither of the form `{fileId}-card-{index}` (its suffix is not a
numeral) nor a manual reference, so the claim requires `null`; but
`parseInt` accepts the garbage suffix as `0` and the call resolves to
`detectedCards["f"][0]`, which is non-null. -/
theorem resolveDetectedCard_garbage_suffix_not_null :
    ("0junk".data.all isDigitChar) = false ∧
    resolveDetectedCard (some "f") (some "f-card-0junk")
      (fun fid => if fid = "f" then some [sampleCard] else none)
      (fun _ => none) = some sampleCard := by
  constructor
  · decide
  · rfl

theorem strStartsWith_append (a b : String) : strStartsWith (a ++ b) a = true := by
  unfold strStartsWith
  rw [String.data_append]
  exact List.isPrefixOf_iff_prefix.mpr (List.prefix_append _ _)

theorem strDropChars_append (a b : String) : strDropChars (a ++ b) a.length = b := by
  unfold strDropChars
  rw [String.data_append, show a.length = a.data.length from rfl, List.drop_left]

theorem manual_ref_not_auto_ref (fid m : String) :
    strStartsWith (fid ++ "-manual-" ++ m) (fid ++ "-card-") = false := by
  unfold strStartsWith
  simp only [String.data_append]
  rw [← Bool.not_eq_true, List.isPrefixOf_iff_prefix, List.append_assoc,
    List.prefix_append_right_inj]
  rintro ⟨t, ht⟩
  simp at ht

theorem append_mid_ne_empty (a m b : String) (hm : m.data ≠ []) : a ++ m ++ b ≠ "" := by
  intro h
  have h2 := congrArg String.data h
  rw [String.data_append, String.data_append,
    show ("" : String).data = [] from rfl] at h2
  rcases List.append_eq_nil.mp h2 with ⟨h3, _⟩
  rcases List.append_eq_nil.mp h3 with ⟨_, h4⟩
  exact hm h4

/-- Claim C7 (amended): `resolveDetectedCard` never throws (it is a
total function); a missing `fileId` or `detectionId` — the `undefined`
and the falsy empty-string case alike — resolves to null; a reference
matching neither the `{fileId}-card-` nor the `{fileId}-manual-`
prefix resolves to null; for a non-empty `fileId`,
`{fileId}-card-{index}` with a digit-sequence index resolves to
`detectedCards[fileId][index]` (null when the list is absent or the
index is out of range) and `{fileId}-manual-{manualId}` resolves by
linear lookup of `manualId`.  The one divergence from the claim as
written: a reference that starts with `{fileId}-card-` but continues
with a non-numeral suffix is not always null, because `parseInt`
accepts any leading integer prefix (see the counterexample). -/
theorem resolveDetectedCard_rules
    (fid m : String) (ds : List Char) (did : Option String)
    (detectedCards : String → Option (List DetectedCard))
    (adjustments : String → Option DetectionAdjustment)
    (hfid : fid ≠ "") (hne : ds ≠ []) (hdig : ∀ c ∈ ds, isDigitChar c = true) :
    resolveDetectedCard none did detectedCards adjustments = none ∧
    resolveDetectedCard (some fid) none detectedCards adjustments = none ∧
    (∀ d : Option String,
      resolveDetectedCard (some "") d detectedCards adjustments = none) ∧
    resolveDetectedCard (some fid) (some "") detectedCards adjustments = none ∧
    (∀ d : String, strStartsWith d (fid ++ "-card-") = false →
      strStartsWith d (fid ++ "-manual-") = false →
      resolveDetectedCard (some fid) (some d) detectedCards adjustments = none) ∧
    resolveDetectedCard (some fid) (some (fid ++ "-card-" ++ ⟨ds⟩))
        detectedCards adjustments =
      ((detectedCards fid).getD []).get? (digitsToNat ds) ∧
    resolveDetectedCard (some fid) (some (fid ++ "-manual-" ++ m))
        detectedCards adjustments =
      ((((adjustments fid).map DetectionAdjustment.manual).getD []).find?
        (fun e => e.id == m)).map ManualDetectionAdjustment.card := by
  have hdid : (fid ++ "-card-" ++ (⟨ds⟩ : String)) ≠ "" :=
    append_mid_ne_empty fid "-card-" ⟨ds⟩ (by decide)
  have hdidm : (fid ++ "-manual-" ++ m) ≠ "" :=
    append_mid_ne_empty fid "-manual-" m (by decide)
  refine ⟨rfl, rfl, ?_, ?_, ?_, ?_, ?_⟩
  · intro d
    cases d
    · rfl
    · simp [resolveDetectedCard]
  · simp [resolveDetectedCard]
  · intro d h1 h2
    simp [resolveDetectedCard, h1, h2]
  · have hpre : strStartsWith (fid ++ "-card-" ++ ⟨ds⟩) (fid ++ "-card-") = true :=
      strStartsWith_append (fid ++ "-card-") ⟨ds⟩
    have hdrop : strDropChars (fid ++ "-card-" ++ ⟨ds⟩)
        (fid.length + ("-card-" : String).length) = ⟨ds⟩ := by
      have h := strDropChars_append (fid ++ "-card-") ⟨ds⟩
      rwa [String.length_append] at h
    simp [resolveDetectedCard, hfid, hdid, hpre, hdrop,
      jsParseInt_digits ds hne hdig, Int.natCast_nonneg, Int.toNat_natCast]
  · have hauto : strStartsWith (fid ++ "-manual-" ++ m) (fid ++ "-card-") = false :=
      manual_ref_not_auto_ref fid m
    have hman : strStartsWith (fid ++ "-manual-" ++ m) (fid ++ "-manual-") = true :=
      strStartsWith_append (fid ++ "-manual-") m
    have hdrop : strDropChars (fid ++ "-manual-" ++ m)
        (fid.length + ("-manual-" : String).length) = m := by
      have h := strDropChars_append (fid ++ "-manual-") m
      rwa [String.length_append] at h
    simp [resolveDetectedCard, hfid, hdidm, hauto, hman, hdrop]

/-- Witness for C7 at the non-empty `fileId = "f"`, digit index `"1"`,
manual id `"a1"`, with empty detection and adjustment maps. -/
theorem resolveDetectedCard_rules_witness :
    ("f" : String) ≠ "" ∧
    (['1'] : List Char) ≠ [] ∧ (∀ c ∈ (['1'] : List Char), isDigitChar c = true) ∧
    (resolveDetectedCard none none (fun _ => none) (fun _ => none) = none ∧
      resolveDetectedCard (some "f") none (fun _ => none) (fun _ => none) = none ∧
      (∀ d : Option String,
        resolveDetectedCard (some "") d (fun _ => none) (fun _ => none) = none) ∧
      resolveDetectedCard (some "f") (some "") (fun _ => none) (fun _ => none) = none ∧
      (∀ d : String, strStartsWith d ("f" ++ "-card-") = false →
        strStartsWith d ("f" ++ "-manual-") = false →
        resolveDetectedCard (some "f") (some d) (fun _ => none) (fun _ => none) = none) ∧
      resolveDetectedCard (some "f") (some ("f" ++ "-card-" ++ ⟨['1']⟩))
          (fun _ => none) (fun _ => none) =
        (((fun _ => none : String → Option (List DetectedCard)) "f").getD []).get?
          (digitsToNat ['1']) ∧
      resolveDetectedCard (some "f") (some ("f" ++ "-manual-" ++ "a1"))
          (fun _ => none) (fun _ => none) =
        (((((fun _ => none : String → Option DetectionAdjustment) "f").map
            DetectionAdjustment.manual).getD []).find?
          (fun e => e.id == "a1")).map ManualDetectionAdjustment.card) :=
  ⟨by decide, by decide, by decide,
    resolveDetectedCard_rules "f" "a1" ['1'] none (fun _ => none) (fun _ => none)
      (by decide) (by decide) (by decide)⟩

/-! ## Theorems: folder-segment sanitisation (claim C10) -/

theorem head?_dropWhile_not {p : Char → Bool} : ∀ {l : List Char} {c : Char},
    (l.dropWhile p).head? = some c → p c = false := by
  intro l
  induction l with
  | nil => intro c h; simp at h
  | cons x xs ih =>
    intro c h
    rw [List.dropWhile_cons] at h
    split at h
    · exact ih h
    · rename_i hx
      rw [List.head?_cons, Option.some.injEq] at h
      subst h
      exact Bool.eq_false_iff.mpr hx

theorem collapseRuns_mem {p : Char → Bool} {r : Char} {l : List Char} :
    ∀ {b : Bool} {c : Char}, c ∈ collapseRuns p r b l →
      c = r ∨ (c ∈ l ∧ p c = false) := by
  induction l with
  | nil => intro b c h; simp [collapseRuns] at h
  | cons x xs ih =>
    intro b c h
    by_cases hx : p x = true
    · cases b
      · rw [show collapseRuns p r false (x :: xs) = r :: collapseRuns p r true xs
            from by simp [collapseRuns, hx]] at h
        rcases List.mem_cons.mp h with rfl | h2
        · exact Or.inl rfl
        · rcases ih h2 with h3 | ⟨h3, h4⟩
          · exact Or.inl h3
          · exact Or.inr ⟨List.mem_cons_of_mem x h3, h4⟩
      · rw [show collapseRuns p r true (x :: xs) = collapseRuns p r true xs
            from by simp [collapseRuns, hx]] at h
        rcases ih h with h3 | ⟨h3, h4⟩
        · exact Or.inl h3
        · exact Or.inr ⟨List.mem_cons_of_mem x h3, h4⟩
    · rw [show collapseRuns p r b (x :: xs) = x :: collapseRuns p r false xs
          from by simp [collapseRuns, hx]] at h
      rcases List.mem_cons.mp h with rfl | h2
      · exact Or.inr ⟨List.mem_cons_self c xs, Bool.eq_false_iff.mpr hx⟩
      · rcases ih h2 with h3 | ⟨h3, h4⟩
        · exact Or.inl h3
        · exact Or.inr ⟨List.mem_cons_of_mem x h3, h4⟩

theorem collapseRuns_head_true {p : Char → Bool} {r : Char} : ∀ {l : List Char} {c : Char},
    (collapseRuns p r true l).head? = some c → p c = false := by
  intro l
  induction l with
  | nil => intro c h; simp [collapseRuns] at h
  | cons x xs ih =>
    intro c h
    by_cases hx : p x = true
    · rw [show collapseRuns p r true (x :: xs) = collapseRuns p r true xs
          from by simp [collapseRuns, hx]] at h
      exact ih h
    · rw [show collapseRuns p r true (x :: xs) = x :: collapseRuns p r false xs
          from by simp [collapseRuns, hx]] at h
      rw [List.head?_cons, Option.some.injEq] at h
      subst h
      exact Bool.eq_false_iff.mpr hx

theorem collapseRuns_chain {p : Char → Bool} {r : Char} {l : List Char} : ∀ {b : Bool},
    (collapseRuns p r b l).Chain' (fun a d => ¬(p a = true ∧ p d = true)) := by
  induction l with
  | nil => intro b; simp [collapseRuns]
  | cons x xs ih =>
    intro b
    by_cases hx : p x = true
    · cases b
      · rw [show collapseRuns p r false (x :: xs) = r :: collapseRuns p r true xs
            from by simp [collapseRuns, hx]]
        rw [List.chain'_cons']
        refine ⟨?_, ih⟩
        intro d hd
        rw [Option.mem_def] at hd
        rintro ⟨_, h2⟩
        rw [collapseRuns_head_true hd] at h2
        exact Bool.false_ne_true h2
      · rw [show collapseRuns p r true (x :: xs) = collapseRuns p r true xs
            from by simp [collapseRuns, hx]]
        exact ih
    · rw [show collapseRuns p r b (x :: xs) = x :: collapseRuns p r false xs
          from by simp [collapseRuns, hx]]
      rw [List.chain'_cons']
      refine ⟨fun d _ => ?_, ih⟩
      rintro ⟨h1, _⟩
      exact hx h1

theorem head?_of_isPrefix {l t : List Char} {c : Char} (h : l <+: t)
    (hc : l.head? = some c) : t.head? = some c := by
  obtain ⟨s, rfl⟩ := h
  cases l with
  | nil => simp at hc
  | cons x xs => simpa using hc

/-- Claim C10: for every input string (and every NFKC normalisation),
`sanitizeFolderSegment` returns a string with none of the characters
`\\ / : * ? " < > |`, no whitespace, no two consecutive underscores,
and no leading or trailing underscore; the empty string maps to the
empty string. -/
theorem sanitizeFolderSegment_spec (nfkc : String → String) (value : String) :
    (∀ c ∈ (sanitizeFolderSegment nfkc value).data, isInvalidFolderChar c = false) ∧
    (∀ c ∈ (sanitizeFolderSegment nfkc value).data, jsWhitespaceChar c = false) ∧
    List.Chain' (fun a b => ¬(a = '_' ∧ b = '_')) (sanitizeFolderSegment nfkc value).data ∧
    (∀ c, (sanitizeFolderSegment nfkc value).data.head? = some c → c ≠ '_') ∧
    (∀ c, (sanitizeFolderSegment nfkc value).data.getLast? = some c → c ≠ '_') ∧
    sanitizeFolderSegment nfkc "" = "" := by
  by_cases hv : value = ""
  · subst hv
    refine ⟨?_, ?_, ?_, ?_, ?_, rfl⟩ <;> simp [sanitizeFolderSegment]
  · set q : Char → Bool := fun c => c == '_' with hq
    set l1 : List Char := (nfkc value).data.filter (fun c => !(isInvalidFolderChar c))
      with hl1
    set l2 : List Char := trimWs l1 with hl2
    set l3 : List Char := collapseRuns jsWhitespaceChar '_' false l2 with hl3
    set l4 : List Char := collapseRuns q '_' false l3 with hl4
    set A : List Char := l4.dropWhile q with hA
    set L : List Char := (A.reverse.dropWhile q).reverse with hL
    have hdata : (sanitizeFolderSegment nfkc value).data = L := by
      simp only [sanitizeFolderSegment, if_neg hv]
    have hsubL : ∀ c ∈ L, c ∈ l4 := by
      intro c hc
      rw [hL, List.mem_reverse] at hc
      have h1 := (List.dropWhile_suffix q).subset hc
      rw [List.mem_reverse] at h1
      exact (List.dropWhile_suffix q).subset h1
    have hsub2 : ∀ c ∈ l2, c ∈ l1 := by
      intro c hc
      rw [hl2] at hc
      unfold trimWs at hc
      rw [List.mem_reverse] at hc
      have h1 := (List.dropWhile_suffix jsWhitespaceChar).subset hc
      rw [List.mem_reverse] at h1
      exact (List.dropWhile_suffix jsWhitespaceChar).subset h1
    have hinv1 : ∀ c ∈ l1, isInvalidFolderChar c = false := by
      intro c hc
      rw [hl1] at hc
      have h2 := (List.mem_filter.mp hc).2
      simpa using h2
    have hws3 : ∀ c ∈ l3, jsWhitespaceChar c = false := by
      intro c hc
      rcases collapseRuns_mem hc with rfl | ⟨_, h2⟩
      · decide
      · exact h2
    have hmem4 : ∀ c ∈ l4, c = '_' ∨ c ∈ l3 := by
      intro c hc
      rcases collapseRuns_mem hc with h1 | ⟨h1, _⟩
      · exact Or.inl h1
      · exact Or.inr h1
    refine ⟨?_, ?_, ?_, ?_, ?_, rfl⟩
    · intro c hc
      rw [hdata] at hc
      rcases hmem4 c (hsubL c hc) with rfl | h3
      · decide
      · rcases collapseRuns_mem h3 with rfl | ⟨h4, _⟩
        · decide
        · exact hinv1 c (hsub2 c h4)
    · intro c hc
      rw [hdata] at hc
      rcases hmem4 c (hsubL c hc) with rfl | h3
      · decide
      · exact hws3 c h3
    · rw [hdata]
      have hchain4 : l4.Chain' (fun a d => ¬(q a = true ∧ q d = true)) := by
        rw [hl4]; exact collapseRuns_chain
      have hchainA : A.Chain' (fun a d => ¬(q a = true ∧ q d = true)) :=
        hchain4.suffix (List.dropWhile_suffix q)
      have hchainAr : A.reverse.Chain'
          (fun a d => ¬(q a = true ∧ q d = true)) := by
        rw [List.chain'_reverse]
        exact hchainA.imp fun a d h hk => h ⟨hk.2, hk.1⟩
      have hchainD : (A.reverse.dropWhile q).Chain'
          (fun a d => ¬(q a = true ∧ q d = true)) :=
        hchainAr.suffix (List.dropWhile_suffix q)
      have hchainL : L.Chain' (fun a d => ¬(q a = true ∧ q d = true)) := by
        rw [hL, List.chain'_reverse]
        exact hchainD.imp fun a d h hk => h ⟨hk.2, hk.1⟩
      refine hchainL.imp ?_
      intro a d h hk
      exact h ⟨by rw [hq]; exact beq_iff_eq.mpr hk.1, by rw [hq]; exact beq_iff_eq.mpr hk.2⟩
    · intro c hc
      rw [hdata] at hc
      have hpre : L <+: A := by
        rw [hL]
        have h := (List.reverse_prefix).mpr (List.dropWhile_suffix q (l := A.reverse))
        rwa [List.reverse_reverse] at h
      have hheadA : A.head? = some c := head?_of_isPrefix hpre hc
      rw [hA] at hheadA
      have h2 : q c = false := head?_dropWhile_not hheadA
      rw [hq] at h2
      simpa using h2
    · intro c hc
      rw [hdata, hL, List.getLast?_reverse] at hc
      have h2 : q c = false := head?_dropWhile_not hc
      rw [hq] at h2
      simpa using h2

/-! ## Theorems: export destination parity (claim C8) -/

theorem zipPath_foldl_aux (segments : List String) : ∀ (acc name : String),
    segments.foldl (fun a s => a ++ s ++ "/") acc ++ name =
      acc ++ relPath segments name := by
  induction segments with
  | nil => intro acc name; simp [relPath]
  | cons s ss ih =>
    intro acc name
    rw [List.foldl_cons, ih (acc ++ s ++ "/") name]
    simp [relPath, String.append_assoc]

theorem zipPath_eq_relPath (segments : List String) (name : String) :
    zipPath segments name = relPath segments name := by
  unfold zipPath
  rw [zipPath_foldl_aux segments "" name]
  simp

/-- Claim C8: for the same per-pair plans (segments, rendered images,
manifest entries — all computed upstream of the destination branch) and
the same manifest option, the ZIP export writes exactly the entries of
the directory export, in the same order, at the joined relative path
`seg1/…/segN/name`, with identical content — images and `MANIFEST.json`
placement alike. -/
theorem export_destination_parity (plans : List PairPlan) (includeManifests : Bool) :
    zipWrites plans includeManifests =
      (dirWrites plans includeManifests).map
        (fun e => (relPath e.1 e.2.1, e.2.2)) := by
  unfold zipWrites dirWrites
  rw [List.map_append]
  congr 1
  · rw [List.map_flatMap]
    congr 1
    funext p
    rw [List.map_map]
    congr 1
    funext img
    simp [zipPath_eq_relPath]
  · cases includeManifests
    · simp
    · simp only [if_true]
      rw [List.map_map]
      congr 1
      funext p
      simp [zipPath_eq_relPath]
